import Mathlib

set_option maxRecDepth 100000

/-!
Shallow embedding of the pifkoin repository's computational core, and proofs
about it.

Sources embedded:
  * `src/sha256.py` — the root-level round-addressable SHA-256 prototype
    (namespace `SHA256` below).  Its `_round` takes the two 32-bit words `w`
    and `k` directly (no round index) and its `_finalize` always adds
    `INITIAL_STATE`.
  * `src/python/blockchain.py` — `compact`/`uncompact`, the decimal-precision
    context manager and the conversion functions built on it, `BlockHeader`
    with its 80-byte serialization, `calculate_hash`, and `find_nonces`.
  * `python/sha256.py` (the module `pifkoin.sha256` that
    `src/python/blockchain.py` imports; `setup.py` maps the package `pifkoin`
    to the `python/` directory) is NOT present in the sources.  Only its
    caller is.  The definitions in namespace `SpecSHA256` are therefore
    modelled from the spec (§4.2): `round(index, w, prev)` selects the
    constant `K[index % 64]` by absolute round index, `finalize(state, base)`
    takes an explicit `base` defaulting to `INITIAL_STATE`, and
    `process_block` is a whole one-block compression from `INITIAL_STATE`.

Python bytestrings are `List Nat` (one entry per byte); machine words are
`Nat` with explicit `% 2 ^ 32` where the source masks.
-/

/-- `bytes_to_long` from `src/python/blockchain.py`: a bytestring read as a
big-endian (base-256) integer, via `long(binascii.hexlify(value), 16)`. -/
def bytes_to_long (bs : List Nat) : Nat :=
  bs.foldl (fun a b => a * 256 + b) 0

/-- `struct.pack('<L', x)`: the four little-endian bytes of a 32-bit word. -/
def le4 (x : Nat) : List Nat :=
  [x % 256, x / 2 ^ 8 % 256, x / 2 ^ 16 % 256, x / 2 ^ 24 % 256]

/-- `struct.pack('>L', x)`: the four big-endian bytes of a 32-bit word. -/
def be4 (x : Nat) : List Nat :=
  [x / 2 ^ 24 % 256, x / 2 ^ 16 % 256, x / 2 ^ 8 % 256, x % 256]

/-- The eight big-endian bytes of a 64-bit word (the SHA-256 length field). -/
def be8 (x : Nat) : List Nat :=
  [x / 2 ^ 56 % 256, x / 2 ^ 48 % 256, x / 2 ^ 40 % 256, x / 2 ^ 32 % 256,
   x / 2 ^ 24 % 256, x / 2 ^ 16 % 256, x / 2 ^ 8 % 256, x % 256]

/-- `struct.unpack('<L', bs)[0]`: four bytes read as a little-endian word. -/
def leWord4 (bs : List Nat) : Nat :=
  bs.getD 0 0 + bs.getD 1 0 * 2 ^ 8 + bs.getD 2 0 * 2 ^ 16 + bs.getD 3 0 * 2 ^ 24

/-- `socket.htonl` on a little-endian host: byte-swap of a 32-bit word.
Written so that it is definitionally the big-endian word of `le4 x`. -/
def htonl (x : Nat) : Nat :=
  ((x % 256 * 256 + x / 2 ^ 8 % 256) * 256 + x / 2 ^ 16 % 256) * 256 + x / 2 ^ 24 % 256

/-- A byte list grouped into big-endian 32-bit words (four bytes per word);
a trailing fragment of fewer than four bytes is dropped. -/
def beWords : List Nat → List Nat
  | b0 :: b1 :: b2 :: b3 :: rest => (((b0 * 256 + b1) * 256 + b2) * 256 + b3) :: beWords rest
  | _ => []

/-- The big-endian base-256 digit list of `n` (no leading zeros; empty for 0),
as built by `compact`'s `divmod` loop in `src/python/blockchain.py`.  The
first argument is structural fuel; one unit is consumed per digit, so any
`fuel ≥ n` suffices (`toBase256` below passes `n` itself). -/
def toBase256Aux : Nat → Nat → List Nat
  | _, 0 => []
  | 0, _ + 1 => []
  | fuel + 1, n + 1 => toBase256Aux fuel ((n + 1) / 256) ++ [(n + 1) % 256]

/-- The big-endian base-256 digits of `n`. -/
def toBase256 (n : Nat) : List Nat :=
  toBase256Aux n n

/-- `compact` from `src/python/blockchain.py`.  For `number = 0` the source
indexes `base256[0]` on an empty list and raises `IndexError`; that failure
is `none` here. -/
def compact (number : Nat) : Option (List Nat) :=
  let base256 := toBase256 number
  match base256 with
  | [] => none
  | b :: _ =>
    let base256 := if b > 127 then 0 :: base256 else base256
    let length := base256.length
    let padded := base256 ++ List.replicate (3 - length) 0
    some (length :: padded.take 3)

/-- `uncompact` from `src/python/blockchain.py`: strip the length byte, pad
the mantissa with trailing zero bytes up to `length` bytes if it is shorter,
and read the result as a big-endian integer.  (Note the source never scales
down when `length < 3`.) -/
def uncompact (value : List Nat) : Nat :=
  let length := value.headD 0
  let v := value.tail
  let v := if v.length < length then v ++ List.replicate (length - v.length) 0 else v
  bytes_to_long v

/-- `MAX_TARGET = uncompact(b'\x1d\x00\xff\xff')`. -/
def MAX_TARGET : Nat :=
  uncompact [0x1d, 0x00, 0xff, 0xff]

/-- `len(str(2 ** 256))`, the default `digits` of `enough_decimal_precision`. -/
def enough_digits : Nat :=
  (Nat.toDigits 10 (2 ^ 256)).length

/-- Failures that can escape the decimal computations modelled below. -/
inductive DecimalError where
  | divisionByZero
  | indexError
deriving DecidableEq, Repr

/-- `bits_to_difficulty` from `src/python/blockchain.py`, with the global
decimal context threaded explicitly as its precision (a `Nat`).  The
`enough_decimal_precision` generator elevates the precision to
`enough_digits` when the ambient precision is lower, runs the body, and
executes `setcontext(orig_context)` only when the body returns normally:
there is no `try`/`finally` around the `yield`, so an exception thrown into
the generator skips the restore and the elevated precision persists.  The
quotient itself is modelled exactly in `ℚ` (the rounding of `Decimal`
division to the context precision is not modelled; no claim below depends on
the quotient's value). -/
def bits_to_difficulty (bits : List Nat) (prec : Nat) : Except DecimalError ℚ × Nat :=
  let prec' := if prec < enough_digits then enough_digits else prec
  if uncompact bits = 0 then
    (Except.error DecimalError.divisionByZero, prec')
  else
    (Except.ok ((MAX_TARGET : ℚ) / (uncompact bits : ℚ)), prec)

/-- `difficulty_to_bits` from `src/python/blockchain.py`, decimal context
threaded as in `bits_to_difficulty`.  `compact(Decimal(MAX_TARGET) /
Decimal(difficulty))` truncates the quotient to an integer (`long()` inside
`compact`'s `divmod`); a zero divisor raises `DivisionByZero` and a quotient
below 1 makes `compact` raise `IndexError`, both of which escape the
elevated-precision scope without restoring the context. -/
def difficulty_to_bits (difficulty : ℚ) (prec : Nat) : Except DecimalError (List Nat) × Nat :=
  let prec' := if prec < enough_digits then enough_digits else prec
  if difficulty = 0 then
    (Except.error DecimalError.divisionByZero, prec')
  else
    match compact (⌊(MAX_TARGET : ℚ) / difficulty⌋).toNat with
    | none => (Except.error DecimalError.indexError, prec')
    | some bits => (Except.ok bits, prec)

/-- `difficulty_to_target` from `src/python/blockchain.py`:
`uncompact(difficulty_to_bits(difficulty))`, with no precision scope of its
own. -/
def difficulty_to_target (difficulty : ℚ) (prec : Nat) : Except DecimalError Nat × Nat :=
  match difficulty_to_bits difficulty prec with
  | (Except.ok bits, p) => (Except.ok (uncompact bits), p)
  | (Except.error e, p) => (Except.error e, p)

/-- `difficulty_to_target(1)`, the target `find_nonces` computes for its
default `difficulty=1`: dividing `Decimal(MAX_TARGET)` by 1 at the elevated
(78-digit) precision is exact, so the bits are `compact MAX_TARGET` and the
target is their `uncompact`. -/
def difficulty_one_target : Nat :=
  uncompact ((compact MAX_TARGET).getD [])

namespace SHA256

/-- The eight working registers, `SHA256.State` from `src/sha256.py`. -/
structure State where
  a : Nat
  b : Nat
  c : Nat
  d : Nat
  e : Nat
  f : Nat
  g : Nat
  h : Nat
deriving DecidableEq, Repr

/-- FIPS 180-3 section 5.3.3 initial state, from `src/sha256.py`. -/
def INITIAL_STATE : State :=
  ⟨0x6A09E667, 0xBB67AE85, 0x3C6EF372, 0xA54FF53A,
   0x510E527F, 0x9B05688C, 0x1F83D9AB, 0x5BE0CD19⟩

/-- FIPS 180-3 section 4.2.2 round constants, from `src/sha256.py`. -/
def K : List Nat :=
  [0x428A2F98, 0x71374491, 0xB5C0FBCF, 0xE9B5DBA5,
   0x3956C25B, 0x59F111F1, 0x923F82A4, 0xAB1C5ED5,
   0xD807AA98, 0x12835B01, 0x243185BE, 0x550C7DC3,
   0x72BE5D74, 0x80DEB1FE, 0x9BDC06A7, 0xC19BF174,
   0xE49B69C1, 0xEFBE4786, 0x0FC19DC6, 0x240CA1CC,
   0x2DE92C6F, 0x4A7484AA, 0x5CB0A9DC, 0x76F988DA,
   0x983E5152, 0xA831C66D, 0xB00327C8, 0xBF597FC7,
   0xC6E00BF3, 0xD5A79147, 0x06CA6351, 0x14292967,
   0x27B70A85, 0x2E1B2138, 0x4D2C6DFC, 0x53380D13,
   0x650A7354, 0x766A0ABB, 0x81C2C92E, 0x92722C85,
   0xA2BFE8A1, 0xA81A664B, 0xC24B8B70, 0xC76C51A3,
   0xD192E819, 0xD6990624, 0xF40E3585, 0x106AA070,
   0x19A4C116, 0x1E376C08, 0x2748774C, 0x34B0BCB5,
   0x391C0CB3, 0x4ED8AA4A, 0x5B9CCA4F, 0x682E6FF3,
   0x748F82EE, 0x78A5636F, 0x84C87814, 0x8CC70208,
   0x90BEFFFA, 0xA4506CEB, 0xBEF9A3F7, 0xC67178F2]

/-- `_rrot` from `src/sha256.py`: `(x >> n) | (x << (32 - n))`.  As in the
source, the result is not masked to 32 bits; callers mask after summing. -/
def _rrot (x n : Nat) : Nat :=
  (x >>> n) ||| (x <<< (32 - n))

/-- `_shr` from `src/sha256.py`. -/
def _shr (x n : Nat) : Nat :=
  x >>> n

/-- `_ch` from `src/sha256.py`: `(x & y) ^ (~x & z)`.  Python's `~x & z` on a
32-bit `x` and `z` equals `(x ^ 0xFFFFFFFF) & z`, which is how the unbounded
complement is rendered on `Nat`. -/
def _ch (x y z : Nat) : Nat :=
  (x &&& y) ^^^ ((x ^^^ 0xFFFFFFFF) &&& z)

/-- `_maj` from `src/sha256.py`: `(x & y) ^ (x & z) ^ (y & z)`. -/
def _maj (x y z : Nat) : Nat :=
  (x &&& y) ^^^ (x &&& z) ^^^ (y &&& z)

/-- `_S0` from `src/sha256.py`. -/
def _S0 (x : Nat) : Nat :=
  _rrot x 2 ^^^ _rrot x 13 ^^^ _rrot x 22

/-- `_S1` from `src/sha256.py`. -/
def _S1 (x : Nat) : Nat :=
  _rrot x 6 ^^^ _rrot x 11 ^^^ _rrot x 25

/-- `_s0` from `src/sha256.py`. -/
def _s0 (x : Nat) : Nat :=
  _rrot x 7 ^^^ _rrot x 18 ^^^ _shr x 3

/-- `_s1` from `src/sha256.py`. -/
def _s1 (x : Nat) : Nat :=
  _rrot x 17 ^^^ _rrot x 19 ^^^ _shr x 10

/-- `_round` from `src/sha256.py` (lines 91-120), exactly as written there:
`t1 = prev.h + _S1(prev.e) + _ch(prev.e, prev.f, prev.g) + k + w`,
`t2 = _S0(prev.a) + _maj(prev.b, prev.c, prev.d)`, new `a = t1 + t2` and
`e = prev.d + t1` masked to 32 bits, the other registers shifted down. -/
def _round (w k : Nat) (prev : State := INITIAL_STATE) : State :=
  let t1 := prev.h + _S1 prev.e + _ch prev.e prev.f prev.g + k + w
  let t2 := _S0 prev.a + _maj prev.b prev.c prev.d
  { a := (t1 + t2) % 2 ^ 32
    b := prev.a
    c := prev.b
    d := prev.c
    e := (prev.d + t1) % 2 ^ 32
    f := prev.e
    g := prev.f
    h := prev.g }

/-- One step of `_expand_message`'s loop: append
`w[i-16] + _s0(w[i-15]) + w[i-7] + _s1(w[i-2])` (mod 2^32) where `i` is the
index of the word being appended (the current length). -/
def expandStep (w : List Nat) : List Nat :=
  w ++ [(w.getD (w.length - 16) 0 + _s0 (w.getD (w.length - 15) 0) +
         w.getD (w.length - 7) 0 + _s1 (w.getD (w.length - 2) 0)) % 2 ^ 32]

/-- Iterate `expandStep`. -/
def expandAux : Nat → List Nat → List Nat
  | 0, w => w
  | n + 1, w => expandAux n (expandStep w)

/-- `_expand_message` from `src/sha256.py`: extend 16 message words to the
64-word schedule. -/
def _expand_message (message : List Nat) : List Nat :=
  expandAux 48 message

/-- `_finalize` from `src/sha256.py`: add `INITIAL_STATE` into each register
mod 2^32.  (This prototype version has no `base` parameter; compare
`SpecSHA256._finalize`.) -/
def _finalize (state : State) : State :=
  { a := (state.a + INITIAL_STATE.a) % 2 ^ 32
    b := (state.b + INITIAL_STATE.b) % 2 ^ 32
    c := (state.c + INITIAL_STATE.c) % 2 ^ 32
    d := (state.d + INITIAL_STATE.d) % 2 ^ 32
    e := (state.e + INITIAL_STATE.e) % 2 ^ 32
    f := (state.f + INITIAL_STATE.f) % 2 ^ 32
    g := (state.g + INITIAL_STATE.g) % 2 ^ 32
    h := (state.h + INITIAL_STATE.h) % 2 ^ 32 }

end SHA256

namespace SpecSHA256

/-- Modelled from the spec: `pifkoin.sha256`'s round function
(`python/sha256.py`, absent from the sources).  Spec §4.2: one compression
round with `T1 = h + Sigma1(e) + Ch(e,f,g) + k_i + w_i` and
`T2 = Sigma0(a) + Maj(a,b,c)` (mod 2^32); the constant `k_i` is selected by
the absolute round `index` into `K` (`K[index % 64]`), per the §4.2 contract
that round indices track global position across chained blocks (this is also
the only reading consistent with `find_nonces` passing `64+i` and `128+i`). -/
def round (index : Nat) (w : Nat) (prev : SHA256.State) : SHA256.State :=
  let k := SHA256.K.getD (index % 64) 0
  let t1 := prev.h + SHA256._S1 prev.e + SHA256._ch prev.e prev.f prev.g + k + w
  let t2 := SHA256._S0 prev.a + SHA256._maj prev.a prev.b prev.c
  { a := (t1 + t2) % 2 ^ 32
    b := prev.a
    c := prev.b
    d := prev.c
    e := (prev.d + t1) % 2 ^ 32
    f := prev.e
    g := prev.f
    h := prev.g }

/-- Modelled from the spec: `pifkoin.sha256`'s `_finalize(state,
base=INITIAL_STATE)` (spec §4.2): add `base` into each register mod 2^32,
`base` defaulting to the FIPS initial constants. -/
def _finalize (state : SHA256.State)
    (base : SHA256.State := SHA256.INITIAL_STATE) : SHA256.State :=
  { a := (state.a + base.a) % 2 ^ 32
    b := (state.b + base.b) % 2 ^ 32
    c := (state.c + base.c) % 2 ^ 32
    d := (state.d + base.d) % 2 ^ 32
    e := (state.e + base.e) % 2 ^ 32
    f := (state.f + base.f) % 2 ^ 32
    g := (state.g + base.g) % 2 ^ 32
    h := (state.h + base.h) % 2 ^ 32 }

end SpecSHA256

/-- Run `count` consecutive rounds of `SpecSHA256.round`: round `off + i`
consumes word `w[i]`, for `i = lo, lo+1, ..., lo+count-1`.  This is the shape
of every `for i in xrange(...)` round loop in `find_nonces`. -/
def roundsFrom (off : Nat) (w : List Nat) (lo : Nat) : Nat → SHA256.State → SHA256.State
  | 0, s => s
  | count + 1, s => roundsFrom off w (lo + 1) count (SpecSHA256.round (off + lo) (w.getD lo 0) s)

namespace SpecSHA256

/-- One whole-block compression from chaining value `s`: expand the 16
message words, run rounds 0-63, and add `s` back in (`_finalize` with `base
= s`).  `process_block` is this at `s = INITIAL_STATE`, and the chained
block computations in `find_nonces` are this with the midstate as `s`. -/
def compressBlock (s : SHA256.State) (message : List Nat) : SHA256.State :=
  _finalize (roundsFrom 0 (SHA256._expand_message message) 0 64 s) s

/-- Modelled from the spec: `pifkoin.sha256`'s `_process_block` (spec §4.2):
full one-block compression of 64 raw bytes — expand, 64 rounds from
`INITIAL_STATE`, finalize against `INITIAL_STATE`. -/
def _process_block (data : List Nat) : SHA256.State :=
  compressBlock SHA256.INITIAL_STATE (beWords data)

end SpecSHA256

/-- `struct.pack('>LLLLLLLL', *state)`: the 32 digest bytes of a state. -/
def stateBytes (s : SHA256.State) : List Nat :=
  be4 s.a ++ be4 s.b ++ be4 s.c ++ be4 s.d ++ be4 s.e ++ be4 s.f ++ be4 s.g ++ be4 s.h

/-- `list(state)`: the eight registers as a list of words. -/
def stateList (s : SHA256.State) : List Nat :=
  [s.a, s.b, s.c, s.d, s.e, s.f, s.g, s.h]

/-- FIPS 180-3 padding: append `0x80`, zero bytes to 56 mod 64, and the
64-bit big-endian bit length. -/
def sha256pad (msg : List Nat) : List Nat :=
  msg ++ 0x80 :: (List.replicate ((64 - (msg.length + 9) % 64) % 64) 0 ++ be8 (8 * msg.length))

/-- Split a word list into 16-word (512-bit) blocks.  Structural fuel; any
fuel at least the list length suffices. -/
def chunk16 : Nat → List Nat → List (List Nat)
  | 0, _ => []
  | _ + 1, [] => []
  | fuel + 1, b :: ws => (b :: ws).take 16 :: chunk16 fuel ((b :: ws).drop 16)

/-- Reference (direct, unoptimized) SHA-256 of a whole byte string: pad,
split into blocks, and fold the one-block compression over them, per the
spec's description of the hash the optimized search must agree with (§4.2,
§4.4 "direct (unoptimized) double-SHA256 computation"). -/
def sha256 (msg : List Nat) : List Nat :=
  stateBytes ((chunk16 (beWords (sha256pad msg)).length (beWords (sha256pad msg))).foldl
    SpecSHA256.compressBlock SHA256.INITIAL_STATE)

/-- `BlockHeader` from `src/python/blockchain.py`.  `time` is kept as the
32-bit Unix timestamp that the source serializes: the constructor's
conversion of a (truthy) integer timestamp to `datetime` and the
serializer's `time.mktime(self.time.timetuple())` are modelled as the
identity on that timestamp.  Unset optional fields (`height`, `hash`) are
`none`; the hashed fields are total here, modelling a header whose hash
inputs are all set. -/
structure BlockHeader where
  height : Option Nat := none
  version : Nat := 1
  previousblockhash : List Nat := []
  merkleroot : List Nat := []
  time : Nat := 0
  bits : List Nat := []
  nonce : Nat := 0
  hash : Option (List Nat) := none
deriving DecidableEq, Repr

/-- The `bytes` property of `BlockHeader`: `version(4 LE) |
previousblockhash(32, byte-reversed) | merkleroot(32, byte-reversed) |
time(4 LE) | bits(4, byte-reversed) | nonce(4 LE)`. -/
def BlockHeader.bytes (bh : BlockHeader) : List Nat :=
  le4 bh.version ++ bh.previousblockhash.reverse ++ bh.merkleroot.reverse ++
    le4 bh.time ++ bh.bits.reverse ++ le4 bh.nonce

/-- `BlockHeader.from_bytes`: decode the six hashed fields from an 80-byte
buffer (slices `[:4]`, `[4:36]`, `[36:68]`, `[68:72]`, `[72:76]`,
`[76:80]`, the 32- and 4-byte fields byte-reversed). -/
def BlockHeader.from_bytes (data : List Nat) : BlockHeader :=
  { version := leWord4 (data.take 4)
    previousblockhash := ((data.drop 4).take 32).reverse
    merkleroot := ((data.drop 36).take 32).reverse
    time := leWord4 ((data.drop 68).take 4)
    bits := ((data.drop 72).take 4).reverse
    nonce := leWord4 ((data.drop 76).take 4) }

/-- `BlockHeader.calculate_hash` with the default `hashlib.sha256` backend:
double-SHA-256 the 80 header bytes, byte-reverse the digest, and raise
`ValueError` — leaving `self.hash` untouched — when the result read as an
integer exceeds `uncompact(self.bits)`; otherwise store and return it.  The
pair returned here is (raised-or-returned value, header afterwards). -/
def BlockHeader.calculate_hash (bh : BlockHeader) :
    Except String (List Nat) × BlockHeader :=
  let h := (sha256 (sha256 bh.bytes)).reverse
  if bytes_to_long h > uncompact bh.bits then
    (Except.error "Hash does not meet required difficulty", bh)
  else
    (Except.ok h, { bh with hash := some h })

/-- The loop-invariant second-block message of `find_nonces`: the merkle
tail word (`struct.unpack('<L', merkleroot[:4])`), the byte-swapped
timestamp, the bits word (`struct.unpack('<L', bits)`), the nonce slot (0,
to be filled in later), the terminating bit `0x80000000`, nine padding
zeros, and the 640-bit message length. -/
def BlockHeader.message2 (bh : BlockHeader) : List Nat :=
  [leWord4 (bh.merkleroot.take 4), htonl bh.time, leWord4 bh.bits, 0, 0x80000000,
   0, 0, 0, 0, 0, 0, 0, 0, 0, 0, 640]

/-- The first hash of one nonce attempt: insert the nonce into word 3 of
`message2`, expand the schedule, run the remaining rounds 3-63 (global
indices 67-127) from `midstate2`, and finalize against `midstate` (the
chained Davies-Meyer addition with the first block's output). -/
def BlockHeader.first_hash_state (bh : BlockHeader) (midstate midstate2 : SHA256.State)
    (nonce : Nat) : SHA256.State :=
  SpecSHA256._finalize
    (roundsFrom 64 (SHA256._expand_message (bh.message2.set 3 (htonl nonce))) 3 61 midstate2)
    midstate

/-- The second hash's one-block message: the eight first-hash registers,
the terminating bit, padding, and the 256-bit length. -/
def secondMessage (st : SHA256.State) : List Nat :=
  stateList st ++ [0x80000000, 0, 0, 0, 0, 0, 0, 256]

/-- The body of `find_nonces`' nonce loop, with the loop-invariant values
(`midstate`, `midstate2`, `target`) as parameters: compute the first hash
(`first_hash_state`); then run rounds 0-60 of the second hash and abandon
the nonce (`none`) unless the `e` register equals `0xa41f32e7` (the value
that makes the final `h` lane finalize to zero); survivors finish rounds
61-63, finalize, byte-reverse the digest, and are yielded when it is
numerically below the target. -/
def BlockHeader.nonce_attempt (bh : BlockHeader) (midstate midstate2 : SHA256.State)
    (target nonce : Nat) : Option BlockHeader :=
  let state1 := bh.first_hash_state midstate midstate2 nonce
  let w2 := SHA256._expand_message (secondMessage state1)
  let s61 := roundsFrom 128 w2 0 61 SHA256.INITIAL_STATE
  if s61.e ≠ 0xa41f32e7 then none
  else
    let st := SpecSHA256._finalize (roundsFrom 128 w2 61 3 s61) SHA256.INITIAL_STATE
    let h := (stateBytes st).reverse
    if bytes_to_long h < target then
      some { height := none, version := bh.version,
             previousblockhash := bh.previousblockhash,
             merkleroot := bh.merkleroot, time := bh.time, bits := bh.bits,
             nonce := nonce, hash := some h }
    else none

/-- `BlockHeader.find_nonces` from `src/python/blockchain.py` at its default
`difficulty=1` (so `target = difficulty_to_target(1)`), the generator
reified as the list of yielded headers.  Block A of the first hash is
processed once (`midstate`); the second block's first three nonce-invariant
words are folded into `midstate2` once (rounds 64-66 of the global round
numbering, i.e. rounds 0-2 of the second block); then `nonce_attempt` runs
for every nonce in the inclusive range. -/
def BlockHeader.find_nonces (bh : BlockHeader) (start stop : Nat) : List BlockHeader :=
  (List.range' start (stop + 1 - start)).filterMap
    (bh.nonce_attempt (SpecSHA256._process_block (bh.bytes.take 64))
      (roundsFrom 64 bh.message2 0 3 (SpecSHA256._process_block (bh.bytes.take 64)))
      difficulty_one_target)

/-! ## Concrete instances used by the theorems below -/

/-! ## C2: the prototype round's T2 uses Maj(b,c,d), not Maj(a,b,c) -/
/-- A state separating `Maj(a,b,c)` from `Maj(b,c,d)`. -/
def majGapState : SHA256.State :=
  ⟨0, 0, 0xffffffff, 0xffffffff, 0, 0, 0, 0⟩

/-! ## C5: calculate_hash bound, storage, and the byte order of the bound -/
/-- The Bitcoin genesis block header fields (hashed-field display values,
as `from_dict`/`from_bytes` would populate them). -/
def genesis : BlockHeader :=
  { version := 1
    previousblockhash := List.replicate 32 0
    merkleroot := [74, 94, 30, 75, 170, 184, 159, 58, 50, 81, 138, 136, 195, 27, 200, 127,
                   97, 143, 118, 103, 62, 44, 199, 122, 178, 18, 123, 122, 253, 237, 163, 59]
    time := 1231006505
    bits := [0x1d, 0x00, 0xff, 0xff]
    nonce := 2083236893 }

/-- The genesis block hash as stored/returned by `calculate_hash` (the
byte-reversed double-SHA-256 digest). -/
def genesisHash : List Nat :=
  [0, 0, 0, 0, 0, 25, 214, 104, 156, 8, 90, 225, 101, 131, 30, 147,
   79, 247, 99, 174, 70, 162, 166, 193, 114, 179, 241, 182, 10, 140, 226, 111]

/-- A concrete well-formed 80-byte buffer (version 1, zero previous hash and
merkle root, time word 999, zero bits and nonce). -/
def roundtripExample : List Nat :=
  le4 1 ++ List.replicate 64 0 ++ le4 999 ++ le4 0 ++ le4 0

/-- A header with all hash-input fields set, for exercising the search. -/
def searchExample : BlockHeader :=
  { version := 1
    previousblockhash := List.replicate 32 0
    merkleroot := List.replicate 32 0
    time := 1
    bits := [0x1d, 0x00, 0xff, 0xff]
    nonce := 0 }

/-! ## Helper lemmas -/



theorem stateBytes_length (s : SHA256.State) : (stateBytes s).length = 32 := by
  simp [stateBytes, be4]

theorem sha256_length (msg : List Nat) : (sha256 msg).length = 32 := by
  simp [sha256, stateBytes_length]

/-! ## Lemmas for the nonce-search refinement -/

theorem expandAux_extends (n : Nat) (w : List Nat) :
    ∃ t, SHA256.expandAux n w = w ++ t := by
  induction n generalizing w with
  | zero => exact ⟨[], by simp [SHA256.expandAux]⟩
  | succ k ih =>
    obtain ⟨t, ht⟩ := ih (SHA256.expandStep w)
    exact ⟨_, by rw [SHA256.expandAux, ht, SHA256.expandStep, List.append_assoc]⟩

theorem expand_getD_of_lt (m : List Nat) (i : Nat) (h : i < m.length) :
    (SHA256._expand_message m).getD i 0 = m.getD i 0 := by
  obtain ⟨t, ht⟩ := expandAux_extends 48 m
  rw [SHA256._expand_message, ht]
  simp [List.getD, List.getElem?_append_left h]

theorem round_index_add64 (i : Nat) (wd : Nat) (s : SHA256.State) :
    SpecSHA256.round (64 + i) wd s = SpecSHA256.round i wd s := by
  simp only [SpecSHA256.round, Nat.add_mod_left]

theorem roundsFrom_shift (off : Nat) (w : List Nat) (lo n : Nat) (s : SHA256.State) :
    roundsFrom (64 + off) w lo n s = roundsFrom off w lo n s := by
  induction n generalizing lo s with
  | zero => rfl
  | succ k ih =>
    simp only [roundsFrom]
    rw [show 64 + off + lo = 64 + (off + lo) by omega, round_index_add64, ih]

theorem roundsFrom_append (off : Nat) (w : List Nat) (lo m n : Nat) (s : SHA256.State) :
    roundsFrom off w lo (m + n) s = roundsFrom off w (lo + m) n (roundsFrom off w lo m s) := by
  induction m generalizing lo s with
  | zero => simp [roundsFrom]
  | succ k ih =>
    rw [show k + 1 + n = k + n + 1 by omega]
    simp only [roundsFrom]
    rw [ih]
    congr 1
    omega

theorem roundsFrom_congr (off : Nat) (w₁ w₂ : List Nat) (lo n : Nat) (s : SHA256.State)
    (h : ∀ i, lo ≤ i → i < lo + n → w₁.getD i 0 = w₂.getD i 0) :
    roundsFrom off w₁ lo n s = roundsFrom off w₂ lo n s := by
  induction n generalizing lo s with
  | zero => rfl
  | succ k ih =>
    show roundsFrom off w₁ (lo + 1) k _ = roundsFrom off w₂ (lo + 1) k _
    rw [h lo le_rfl (by omega)]
    exact ih (lo + 1) _ (fun i h1 h2 => h i (by omega) (by omega))

theorem beWords_append (xs ys : List Nat) (h : xs.length % 4 = 0) :
    beWords (xs ++ ys) = beWords xs ++ beWords ys := by
  induction xs using beWords.induct with
  | case1 b0 b1 b2 b3 rest ih =>
    simp only [List.length_cons] at h
    simp only [List.cons_append, beWords, List.cons.injEq, true_and]
    exact ih (by omega)
  | case2 l hne =>
    cases l with
    | nil => simp [beWords]
    | cons a t => cases t with
      | nil => simp at h
      | cons b t2 => cases t2 with
        | nil => simp at h
        | cons c t3 => cases t3 with
          | nil => simp at h
          | cons d t4 => exact absurd rfl (hne a b c d t4)

theorem beWords_length (l : List Nat) : (beWords l).length = l.length / 4 := by
  induction l using beWords.induct with
  | case1 b0 b1 b2 b3 rest ih => simp [beWords, ih]; omega
  | case2 l hne =>
    cases l with
    | nil => simp [beWords]
    | cons a t => cases t with
      | nil => simp [beWords]
      | cons b t2 => cases t2 with
        | nil => simp [beWords]
        | cons c t3 => cases t3 with
          | nil => simp [beWords]
          | cons d t4 => exact absurd rfl (hne a b c d t4)

theorem beWords_be4 (x : Nat) (rest : List Nat) (h : x < 2 ^ 32) :
    beWords (be4 x ++ rest) = x :: beWords rest := by
  simp only [be4, List.cons_append, List.nil_append, beWords, List.cons.injEq, and_true,
    true_and]
  exact ⟨by omega, rfl⟩

theorem finalize_fields_lt (s base : SHA256.State) :
    (SpecSHA256._finalize s base).a < 2 ^ 32 ∧ (SpecSHA256._finalize s base).b < 2 ^ 32 ∧
    (SpecSHA256._finalize s base).c < 2 ^ 32 ∧ (SpecSHA256._finalize s base).d < 2 ^ 32 ∧
    (SpecSHA256._finalize s base).e < 2 ^ 32 ∧ (SpecSHA256._finalize s base).f < 2 ^ 32 ∧
    (SpecSHA256._finalize s base).g < 2 ^ 32 ∧ (SpecSHA256._finalize s base).h < 2 ^ 32 := by
  simp only [SpecSHA256._finalize]
  refine ⟨?_, ?_, ?_, ?_, ?_, ?_, ?_, ?_⟩ <;> exact Nat.mod_lt _ (by norm_num)

theorem chunk16_single (ws : List Nat) (h : ws.length = 16) : chunk16 16 ws = [ws] := by
  match ws, h with
  | b :: ws', h =>
    show (b :: ws').take 16 :: chunk16 15 ((b :: ws').drop 16) = [b :: ws']
    rw [List.take_of_length_le (by omega), List.drop_eq_nil_of_le (by omega)]
    rfl

theorem chunk16_double (xs ys : List Nat) (hx : xs.length = 16) (hy : ys.length = 16) :
    chunk16 32 (xs ++ ys) = [xs, ys] := by
  match xs, hx with
  | b :: xs', hx =>
    show ((b :: xs') ++ ys).take 16 :: chunk16 31 (((b :: xs') ++ ys).drop 16) = [b :: xs', ys]
    rw [← hx, List.take_left, List.drop_left]
    match ys, hy with
    | c :: ys', hy =>
      show ((b :: xs') :: (c :: ys').take 16 :: chunk16 30 ((c :: ys').drop 16)) = _
      rw [List.take_of_length_le (by omega), List.drop_eq_nil_of_le (by omega)]
      rfl

theorem getD_set_of_ne (l : List Nat) (i j x : Nat) (h : i ≠ j) :
    (l.set i x).getD j 0 = l.getD j 0 := by
  simp [List.getD, List.getElem?_set_ne h]

theorem roundsFrom_64 (w : List Nat) (lo n : Nat) (s : SHA256.State) :
    roundsFrom 64 w lo n s = roundsFrom 0 w lo n s :=
  roundsFrom_shift 0 w lo n s

theorem roundsFrom_128 (w : List Nat) (lo n : Nat) (s : SHA256.State) :
    roundsFrom 128 w lo n s = roundsFrom 0 w lo n s := by
  rw [show (128 : Nat) = 64 + 64 from rfl, roundsFrom_shift, roundsFrom_64]

theorem beWords_pad_stateBytes (s : SHA256.State)
    (ha : s.a < 2 ^ 32) (hb : s.b < 2 ^ 32) (hc : s.c < 2 ^ 32) (hd : s.d < 2 ^ 32)
    (he : s.e < 2 ^ 32) (hf : s.f < 2 ^ 32) (hg : s.g < 2 ^ 32) (hh : s.h < 2 ^ 32) :
    beWords (sha256pad (stateBytes s)) =
      stateList s ++ [0x80000000, 0, 0, 0, 0, 0, 0, 256] := by
  have e : sha256pad (stateBytes s) =
      stateBytes s ++ 0x80 :: (List.replicate 23 0 ++ be8 256) := by
    simp only [sha256pad, stateBytes_length]
  rw [e, stateBytes]
  simp only [List.append_assoc]
  rw [beWords_be4 _ _ ha, beWords_be4 _ _ hb, beWords_be4 _ _ hc, beWords_be4 _ _ hd,
    beWords_be4 _ _ he, beWords_be4 _ _ hf, beWords_be4 _ _ hg, beWords_be4 _ _ hh]
  rfl

theorem sha256_eq_two_blocks (msg W1 W2 : List Nat)
    (hsplit : beWords (sha256pad msg) = W1 ++ W2)
    (h1 : W1.length = 16) (h2 : W2.length = 16) :
    sha256 msg = stateBytes
      (SpecSHA256.compressBlock (SpecSHA256.compressBlock SHA256.INITIAL_STATE W1) W2) := by
  simp only [sha256, hsplit, List.length_append, h1, h2]
  rw [show (16 + 16 : Nat) = 32 from rfl, chunk16_double W1 W2 h1 h2]
  rfl

theorem sha256_eq_one_block (msg W : List Nat)
    (hsplit : beWords (sha256pad msg) = W) (h1 : W.length = 16) :
    sha256 msg = stateBytes (SpecSHA256.compressBlock SHA256.INITIAL_STATE W) := by
  simp only [sha256, hsplit, h1, chunk16_single W h1]
  rfl

theorem first_hash_compress (m0 : List Nat) (hl : m0.length = 16) (x : Nat)
    (s : SHA256.State) :
    SpecSHA256._finalize
      (roundsFrom 64 (SHA256._expand_message (m0.set 3 x)) 3 61 (roundsFrom 64 m0 0 3 s)) s
      = SpecSHA256.compressBlock s (m0.set 3 x) := by
  have h03 : roundsFrom 0 m0 0 3 s =
      roundsFrom 0 (SHA256._expand_message (m0.set 3 x)) 0 3 s := by
    refine roundsFrom_congr 0 m0 _ 0 3 s (fun i h1 h2 => ?_)
    rw [expand_getD_of_lt _ i (by simp [hl]; omega),
      getD_set_of_ne _ 3 i _ (by omega)]
  have hrounds :
      roundsFrom 64 (SHA256._expand_message (m0.set 3 x)) 3 61 (roundsFrom 64 m0 0 3 s)
        = roundsFrom 0 (SHA256._expand_message (m0.set 3 x)) 0 64 s := by
    rw [roundsFrom_64, roundsFrom_64, h03,
      show (64 : Nat) = 3 + 61 from rfl, roundsFrom_append]
  rw [hrounds]
  rfl

theorem second_hash_compress (mlist : List Nat) :
    SpecSHA256._finalize
      (roundsFrom 128 (SHA256._expand_message mlist) 61 3
        (roundsFrom 128 (SHA256._expand_message mlist) 0 61 SHA256.INITIAL_STATE))
      SHA256.INITIAL_STATE
      = SpecSHA256.compressBlock SHA256.INITIAL_STATE mlist := by
  have hrounds :
      roundsFrom 0 (SHA256._expand_message mlist) 61 3
        (roundsFrom 0 (SHA256._expand_message mlist) 0 61 SHA256.INITIAL_STATE)
        = roundsFrom 0 (SHA256._expand_message mlist) 0 64 SHA256.INITIAL_STATE := by
    rw [show (64 : Nat) = 61 + 3 from rfl, roundsFrom_append]
  rw [roundsFrom_128, roundsFrom_128, hrounds]
  rfl

theorem exists_four_head (l : List Nat) (h : 4 ≤ l.length) :
    ∃ a b c d rest, l = a :: b :: c :: d :: rest := by
  cases l with
  | nil => simp at h
  | cons a l1 =>
    cases l1 with
    | nil => simp at h
    | cons b l2 =>
      cases l2 with
      | nil => simp at h
      | cons c l3 =>
        cases l3 with
        | nil => simp at h
        | cons d rest => exact ⟨a, b, c, d, rest, rfl⟩

theorem replicate39 : List.replicate 39 (0 : Nat) =
    [0, 0, 0, 0, 0, 0, 0, 0, 0, 0, 0, 0, 0, 0, 0, 0, 0, 0, 0, 0,
     0, 0, 0, 0, 0, 0, 0, 0, 0, 0, 0, 0, 0, 0, 0, 0, 0, 0, 0] := rfl

theorem beWords_tail16 (m0 m1 m2 m3 b0 b1 b2 b3 t n : Nat) :
    beWords (([m0, m1, m2, m3] : List Nat).reverse ++ le4 t ++
        ([b0, b1, b2, b3] : List Nat).reverse ++ le4 n ++
        0x80 :: (List.replicate 39 0 ++ be8 640))
      = [leWord4 [m0, m1, m2, m3], htonl t, leWord4 [b0, b1, b2, b3], htonl n,
         0x80000000, 0, 0, 0, 0, 0, 0, 0, 0, 0, 0, 640] := by
  rw [replicate39]
  simp only [le4, be8, leWord4, htonl, List.reverse_cons, List.reverse_nil,
    List.cons_append, List.nil_append, List.append_assoc, List.getD_cons_zero,
    List.getD_cons_succ]
  simp only [beWords, List.cons.injEq, and_true]
  norm_num
  constructor <;> ring

theorem header_take_64 (v t n : Nat) (p mr bits : List Nat)
    (hp : p.length = 32) (hm : mr.length = 32) :
    (le4 v ++ p.reverse ++ mr.reverse ++ le4 t ++ bits.reverse ++ le4 n).take 64
      = le4 v ++ p.reverse ++ (mr.drop 4).reverse := by
  have hmr : mr.reverse = (mr.drop 4).reverse ++ (mr.take 4).reverse := by
    rw [← List.reverse_append, List.take_append_drop]
  have e : le4 v ++ p.reverse ++ mr.reverse ++ le4 t ++ bits.reverse ++ le4 n
      = (le4 v ++ p.reverse ++ (mr.drop 4).reverse) ++
        ((mr.take 4).reverse ++ le4 t ++ bits.reverse ++ le4 n) := by
    rw [hmr]
    simp [List.append_assoc]
  have hlen : (le4 v ++ p.reverse ++ (mr.drop 4).reverse).length = 64 := by
    simp [le4, hp, hm]
  rw [e, ← hlen, List.take_left]

theorem header_pad_words (v t n : Nat) (p mr bits : List Nat)
    (hp : p.length = 32) (hm : mr.length = 32) (hb : bits.length = 4) :
    beWords (sha256pad (le4 v ++ p.reverse ++ mr.reverse ++ le4 t ++ bits.reverse ++ le4 n))
      = beWords (le4 v ++ p.reverse ++ (mr.drop 4).reverse)
        ++ [leWord4 (mr.take 4), htonl t, leWord4 bits, htonl n,
            0x80000000, 0, 0, 0, 0, 0, 0, 0, 0, 0, 0, 640] := by
  obtain ⟨m0, m1, m2, m3, mrest, hmr4⟩ := exists_four_head mr (by omega)
  obtain ⟨b0, b1, b2, b3, brest, hbits4⟩ := exists_four_head bits (by omega)
  have hbrest : brest = [] := by
    subst hbits4
    simp only [List.length_cons] at hb
    exact List.eq_nil_of_length_eq_zero (by omega)
  subst hbrest
  have hlen80 :
      (le4 v ++ p.reverse ++ mr.reverse ++ le4 t ++ bits.reverse ++ le4 n).length = 80 := by
    simp [le4, hp, hm, hb]
  have hmr : mr.reverse = (mr.drop 4).reverse ++ (mr.take 4).reverse := by
    rw [← List.reverse_append, List.take_append_drop]
  have epad : sha256pad (le4 v ++ p.reverse ++ mr.reverse ++ le4 t ++ bits.reverse ++ le4 n)
      = (le4 v ++ p.reverse ++ (mr.drop 4).reverse) ++
        ((mr.take 4).reverse ++ le4 t ++ bits.reverse ++ le4 n ++
          0x80 :: (List.replicate 39 0 ++ be8 640)) := by
    simp only [sha256pad, hlen80]
    rw [hmr]
    simp [List.append_assoc]
  rw [epad, beWords_append _ _ (by simp [le4, hp, hm])]
  have htake : mr.take 4 = [m0, m1, m2, m3] := by rw [hmr4]; rfl
  rw [htake, hbits4, beWords_tail16]

theorem first_hash_state_fields_lt (bh : BlockHeader) (ms ms2 : SHA256.State) (n : Nat) :
    (bh.first_hash_state ms ms2 n).a < 2 ^ 32 ∧ (bh.first_hash_state ms ms2 n).b < 2 ^ 32 ∧
    (bh.first_hash_state ms ms2 n).c < 2 ^ 32 ∧ (bh.first_hash_state ms ms2 n).d < 2 ^ 32 ∧
    (bh.first_hash_state ms ms2 n).e < 2 ^ 32 ∧ (bh.first_hash_state ms ms2 n).f < 2 ^ 32 ∧
    (bh.first_hash_state ms ms2 n).g < 2 ^ 32 ∧ (bh.first_hash_state ms ms2 n).h < 2 ^ 32 :=
  finalize_fields_lt _ _

theorem first_hash_state_eq (bh : BlockHeader) (n0 : Nat) :
    bh.first_hash_state (SpecSHA256._process_block (bh.bytes.take 64))
      (roundsFrom 64 bh.message2 0 3 (SpecSHA256._process_block (bh.bytes.take 64))) n0
    = SpecSHA256.compressBlock (SpecSHA256._process_block (bh.bytes.take 64))
        (bh.message2.set 3 (htonl n0)) :=
  first_hash_compress bh.message2 rfl (htonl n0) _

theorem sha256_header_eq (bh : BlockHeader) (n0 : Nat)
    (hp : bh.previousblockhash.length = 32) (hm : bh.merkleroot.length = 32)
    (hb : bh.bits.length = 4) :
    sha256 (({ bh with nonce := n0 } : BlockHeader).bytes)
      = stateBytes (SpecSHA256.compressBlock (SpecSHA256._process_block (bh.bytes.take 64))
          (bh.message2.set 3 (htonl n0))) := by
  have ht64 : bh.bytes.take 64
      = le4 bh.version ++ bh.previousblockhash.reverse ++ (bh.merkleroot.drop 4).reverse :=
    header_take_64 bh.version bh.time bh.nonce bh.previousblockhash bh.merkleroot bh.bits hp hm
  have hw1len : (beWords (le4 bh.version ++ bh.previousblockhash.reverse ++
      (bh.merkleroot.drop 4).reverse)).length = 16 := by
    rw [beWords_length]
    simp [le4, hp, hm]
  have hwords : beWords (sha256pad (({ bh with nonce := n0 } : BlockHeader).bytes))
      = beWords (le4 bh.version ++ bh.previousblockhash.reverse ++
          (bh.merkleroot.drop 4).reverse)
        ++ [leWord4 (bh.merkleroot.take 4), htonl bh.time, leWord4 bh.bits, htonl n0,
            0x80000000, 0, 0, 0, 0, 0, 0, 0, 0, 0, 0, 640] :=
    header_pad_words bh.version bh.time n0 bh.previousblockhash bh.merkleroot bh.bits hp hm hb
  have hms : SpecSHA256._process_block (bh.bytes.take 64)
      = SpecSHA256.compressBlock SHA256.INITIAL_STATE
          (beWords (le4 bh.version ++ bh.previousblockhash.reverse ++
            (bh.merkleroot.drop 4).reverse)) := by
    rw [SpecSHA256._process_block, ht64]
  rw [sha256_eq_two_blocks _ _ _ hwords hw1len rfl, hms]
  rfl

theorem sha256_digest_eq (s1 : SHA256.State)
    (ha : s1.a < 2 ^ 32) (hb : s1.b < 2 ^ 32) (hc : s1.c < 2 ^ 32) (hd : s1.d < 2 ^ 32)
    (he : s1.e < 2 ^ 32) (hf : s1.f < 2 ^ 32) (hg : s1.g < 2 ^ 32) (hh : s1.h < 2 ^ 32) :
    sha256 (stateBytes s1)
      = stateBytes (SpecSHA256.compressBlock SHA256.INITIAL_STATE (secondMessage s1)) := by
  refine sha256_eq_one_block _ _ ?_ rfl
  rw [beWords_pad_stateBytes s1 ha hb hc hd he hf hg hh]
  rfl

theorem attempt_hash_eq_naive (bh : BlockHeader) (n0 : Nat) (s1 : SHA256.State)
    (hs1 : s1 = bh.first_hash_state (SpecSHA256._process_block (bh.bytes.take 64))
      (roundsFrom 64 bh.message2 0 3 (SpecSHA256._process_block (bh.bytes.take 64))) n0)
    (hp : bh.previousblockhash.length = 32) (hm : bh.merkleroot.length = 32)
    (hb : bh.bits.length = 4) :
    stateBytes (SpecSHA256._finalize
      (roundsFrom 128 (SHA256._expand_message (secondMessage s1)) 61 3
        (roundsFrom 128 (SHA256._expand_message (secondMessage s1)) 0 61
          SHA256.INITIAL_STATE))
      SHA256.INITIAL_STATE)
    = sha256 (sha256 (({ bh with nonce := n0 } : BlockHeader).bytes)) := by
  obtain ⟨ha', hb', hc', hd', he', hf', hg', hh'⟩ :=
    hs1 ▸ first_hash_state_fields_lt bh _ _ n0
  rw [second_hash_compress (secondMessage s1),
    ← sha256_digest_eq s1 ha' hb' hc' hd' he' hf' hg' hh',
    sha256_header_eq bh n0 hp hm hb, hs1, first_hash_state_eq bh n0]

theorem le4_leWord4 (s : List Nat) (hl : s.length = 4) (hb : ∀ b ∈ s, b < 256) :
    le4 (leWord4 s) = s := by
  match s, hl with
  | [b0, b1, b2, b3], _ =>
    simp only [List.mem_cons, List.not_mem_nil, or_false, forall_eq_or_imp, forall_eq] at hb
    obtain ⟨h0, h1, h2, h3⟩ := hb
    simp only [le4, leWord4, List.getD_cons_zero, List.getD_cons_succ,
      List.cons.injEq, and_true]
    refine ⟨?_, ?_, ?_, ?_⟩ <;> omega

/-! ## C6: finalize adds base into each lane mod 2^32 -/
/-- C6: `SpecSHA256._finalize state base` adds `base` (the explicit
parameter, defaulting to `INITIAL_STATE`, and in the chained computation of
`find_nonces` the prior block's output `midstate`) into each of the eight
registers of `state`, modulo 2^32. -/
theorem finalize_adds_base_per_lane (s base : SHA256.State) :
    (SpecSHA256._finalize s base).a = (s.a + base.a) % 2 ^ 32 ∧
    (SpecSHA256._finalize s base).b = (s.b + base.b) % 2 ^ 32 ∧
    (SpecSHA256._finalize s base).c = (s.c + base.c) % 2 ^ 32 ∧
    (SpecSHA256._finalize s base).d = (s.d + base.d) % 2 ^ 32 ∧
    (SpecSHA256._finalize s base).e = (s.e + base.e) % 2 ^ 32 ∧
    (SpecSHA256._finalize s base).f = (s.f + base.f) % 2 ^ 32 ∧
    (SpecSHA256._finalize s base).g = (s.g + base.g) % 2 ^ 32 ∧
    (SpecSHA256._finalize s base).h = (s.h + base.h) % 2 ^ 32 :=
  ⟨rfl, rfl, rfl, rfl, rfl, rfl, rfl, rfl⟩

/-! ## C7: the early-exit constant -/
/-- C7: the early-exit constant `0xa41f32e7` checked against the round-61
`e` register in `find_nonces` is the mod-2^32 negation of
`INITIAL_STATE.h = 0x5be0cd19`, and a state whose `e` register equals it
has its `h` register finalize to zero after the remaining three rounds
(rounds 61-63 only shift `e` down to `h`) and the closing `_finalize`. -/
theorem early_exit_constant_finalizes_h_zero :
    SHA256.INITIAL_STATE.h = 0x5be0cd19 ∧
    (0xa41f32e7 + SHA256.INITIAL_STATE.h) % 2 ^ 32 = 0 ∧
    ∀ (w : List Nat) (s : SHA256.State), s.e = 0xa41f32e7 →
      (SpecSHA256._finalize (roundsFrom 128 w 61 3 s) SHA256.INITIAL_STATE).h = 0 := by
  refine ⟨rfl, by decide, ?_⟩
  intro w s he
  simp only [roundsFrom, SpecSHA256.round, SpecSHA256._finalize]
  rw [he]
  decide

/-- Witness for `early_exit_constant_finalizes_h_zero` at a concrete state
and word schedule. -/
theorem early_exit_constant_finalizes_h_zero_witness :
    (SpecSHA256._finalize
      (roundsFrom 128 (List.replicate 64 0) 61 3 ⟨1, 2, 3, 4, 0xa41f32e7, 5, 6, 7⟩)
      SHA256.INITIAL_STATE).h = 0 :=
  early_exit_constant_finalizes_h_zero.2.2 (List.replicate 64 0)
    ⟨1, 2, 3, 4, 0xa41f32e7, 5, 6, 7⟩ rfl

/-! ## C10: the prototype round function is symmetric in its two words -/
/-- C10: `SHA256._round` from `src/sha256.py` treats its two word arguments
`w` and `k` interchangeably (both only enter the sum `t1`), so swapping them
yields the same state transition. -/
theorem round_symmetric_in_w_k (w k : Nat) (prev : SHA256.State) :
    SHA256._round w k prev = SHA256._round k w prev := by
  simp only [SHA256._round, SHA256.State.mk.injEq]
  exact ⟨by ring_nf, trivial, trivial, trivial, by ring_nf, trivial, trivial, trivial⟩

/-! ## C2: the prototype round's T2 uses Maj(b,c,d), not Maj(a,b,c) -/

/-- C2 failing input, evaluated: at `w = k = 0` and `majGapState`
(`a = b = 0`, `c = d = 0xffffffff`, `e = f = g = h = 0`), the source's
`_round` produces `a = 0xffffffff` (since it computes
`t2 = _S0(a) + _maj(b, c, d)`), whereas the claimed FIPS formula
`T1 + Sigma0(a) + Maj(a,b,c)` evaluates to `0` — so the claimed new `a`
differs from the code's. -/
theorem round_t2_uses_maj_bcd :
    (SHA256._round 0 0 majGapState).a = 0xffffffff ∧
    ((majGapState.h + SHA256._S1 majGapState.e +
      SHA256._ch majGapState.e majGapState.f majGapState.g + 0 + 0) +
     (SHA256._S0 majGapState.a +
      SHA256._maj majGapState.a majGapState.b majGapState.c)) % 2 ^ 32 = 0 ∧
    (0xffffffff : Nat) ≠ 0 := by
  decide

/-! ## C4: uncompact does not undo compact for short mantissas -/
/-- C4 failing input, evaluated: `compact 0x1234` is the claim's example
encoding `[0x02, 0x12, 0x34, 0x00]`, but `uncompact` of that encoding is
`0x123400`, not `0x1234`: with length byte `L = 2 < 3` the source keeps all
three mantissa bytes instead of scaling by `256^(L-3)`. -/
theorem uncompact_compact_truncation_fails :
    compact 0x1234 = some [0x02, 0x12, 0x34, 0x00] ∧
    uncompact [0x02, 0x12, 0x34, 0x00] = 0x123400 ∧
    (0x123400 : Nat) ≠ 0x1234 := by
  decide

/-! ## C8: the precision context leaks on error exits -/
/-- C8 failing input, evaluated: calling `bits_to_difficulty` on bits that
decode to zero (so the division raises) from ambient precision 28 leaves the
decimal context at the elevated 78 digits — the restore after `yield` is
skipped on the exception path, so the context after the call differs from
the context before it. -/
theorem precision_context_leaks_on_error :
    (bits_to_difficulty [0x00, 0x00, 0x00, 0x00] 28).2 = 78 ∧
    (bits_to_difficulty [0x00, 0x00, 0x00, 0x00] 28).1 =
      Except.error DecimalError.divisionByZero ∧
    (78 : Nat) ≠ 28 := by
  refine ⟨?_, ?_, by decide⟩ <;> rfl

/-! ## C9: compact of zero -/
/-- C9 counterexample: `compact 0` does not return the zero-length encoding
`[0, 0, 0, 0]` (or any encoding): the source raises `IndexError`. -/
theorem compact_zero_not_zero_encoding :
    compact 0 ≠ some [0, 0, 0, 0] := by
  decide

/-- C9 amended: for `n = 0` the digit list is empty and `compact` fails with
`IndexError` at `base256[0]` (modelled as `none`); no encoding is produced. -/
theorem compact_zero_fails : compact 0 = none :=
  rfl

/-! ## C5: calculate_hash bound, storage, and the byte order of the bound -/

/-- C5 counterexample: on the genesis header, `calculate_hash` succeeds and
returns `v = genesisHash`, yet `int(reversed(v)) > uncompact(bits)`: the
comparison the source makes is on `v` itself (the already byte-reversed
digest), not on `reversed(v)` as the claim states. -/
theorem calculate_hash_reversed_bound_fails :
    genesis.calculate_hash.1.toOption = some genesisHash ∧
    genesis.calculate_hash.2.hash = some genesisHash ∧
    bytes_to_long genesisHash.reverse > uncompact genesis.bits := by
  decide

/-- C5 amended: for every header, `calculate_hash` either returns a 32-byte
value `v` — the byte-reversed double-SHA-256 digest — with
`bytes_to_long v ≤ uncompact bits`, storing `v` as the header's hash and
changing nothing else, or fails with the insufficient-difficulty
`ValueError`, leaving the header (in particular its stored hash) unchanged. -/
theorem calculate_hash_bound_and_store (bh : BlockHeader) :
    match bh.calculate_hash with
    | (Except.ok v, bh') =>
        v.length = 32 ∧ bytes_to_long v ≤ uncompact bh.bits ∧
        bh' = { bh with hash := some v }
    | (Except.error e, bh') =>
        e = "Hash does not meet required difficulty" ∧ bh' = bh := by
  have e : bh.calculate_hash =
      (if bytes_to_long ((sha256 (sha256 bh.bytes)).reverse) > uncompact bh.bits then
        (Except.error "Hash does not meet required difficulty", bh)
      else
        (Except.ok ((sha256 (sha256 bh.bytes)).reverse),
          { bh with hash := some ((sha256 (sha256 bh.bytes)).reverse) })) := rfl
  have hlen : ((sha256 (sha256 bh.bytes)).reverse).length = 32 := by
    rw [List.length_reverse, sha256_length]
  rw [e]
  revert hlen
  generalize (sha256 (sha256 bh.bytes)).reverse = v
  intro hlen
  by_cases hgt : bytes_to_long v > uncompact bh.bits
  · rw [if_pos hgt]
    exact ⟨rfl, rfl⟩
  · rw [if_neg hgt]
    exact ⟨hlen, by omega, rfl⟩

/-! ## C3: deserialize-then-reserialize is the identity -/
/-- C3: for a well-formed 80-byte serialized header (all entries bytes, and
a nonzero time word — the constructor converts only a truthy timestamp to a
`datetime`, and a zero-time header cannot be re-serialized by the source),
`from_bytes` followed by `bytes` reproduces the buffer exactly. -/
theorem from_bytes_bytes_roundtrip (x : List Nat) (hlen : x.length = 80)
    (hbyte : ∀ b ∈ x, b < 256) (_htime : leWord4 ((x.drop 68).take 4) ≠ 0) :
    (BlockHeader.from_bytes x).bytes = x := by
  have sub4 : ∀ b ∈ x.take 4, b < 256 := fun b hb => hbyte b (List.take_subset _ _ hb)
  have sub68 : ∀ b ∈ (x.drop 68).take 4, b < 256 := fun b hb =>
    hbyte b (List.drop_subset _ _ (List.take_subset _ _ hb))
  have sub76 : ∀ b ∈ (x.drop 76).take 4, b < 256 := fun b hb =>
    hbyte b (List.drop_subset _ _ (List.take_subset _ _ hb))
  have l4 : (x.take 4).length = 4 := by simp [hlen]
  have l68 : ((x.drop 68).take 4).length = 4 := by simp [hlen]
  have l76 : ((x.drop 76).take 4).length = 4 := by simp [hlen]
  show le4 (leWord4 (x.take 4)) ++ ((x.drop 4).take 32).reverse.reverse ++
      ((x.drop 36).take 32).reverse.reverse ++ le4 (leWord4 ((x.drop 68).take 4)) ++
      ((x.drop 72).take 4).reverse.reverse ++ le4 (leWord4 ((x.drop 76).take 4)) = x
  rw [le4_leWord4 _ l4 sub4, le4_leWord4 _ l68 sub68, le4_leWord4 _ l76 sub76,
    List.reverse_reverse, List.reverse_reverse, List.reverse_reverse]
  have e76 : (x.drop 76).take 4 = x.drop 76 :=
    List.take_of_length_le (by simp [hlen])
  have s76 : (x.drop 72).take 4 ++ x.drop 76 = x.drop 72 := by
    have : (x.drop 72).drop 4 = x.drop 76 := by
      rw [List.drop_drop]
    rw [← this, List.take_append_drop]
  have s72 : (x.drop 68).take 4 ++ x.drop 72 = x.drop 68 := by
    have : (x.drop 68).drop 4 = x.drop 72 := by
      rw [List.drop_drop]
    rw [← this, List.take_append_drop]
  have s68 : (x.drop 36).take 32 ++ x.drop 68 = x.drop 36 := by
    have : (x.drop 36).drop 32 = x.drop 68 := by
      rw [List.drop_drop]
    rw [← this, List.take_append_drop]
  have s36 : (x.drop 4).take 32 ++ x.drop 36 = x.drop 4 := by
    have : (x.drop 4).drop 32 = x.drop 36 := by
      rw [List.drop_drop]
    rw [← this, List.take_append_drop]
  calc x.take 4 ++ (x.drop 4).take 32 ++ (x.drop 36).take 32 ++ (x.drop 68).take 4 ++
        (x.drop 72).take 4 ++ (x.drop 76).take 4
      = x.take 4 ++ ((x.drop 4).take 32 ++ ((x.drop 36).take 32 ++ ((x.drop 68).take 4 ++
        ((x.drop 72).take 4 ++ (x.drop 76).take 4)))) := by simp [List.append_assoc]
    _ = x := by rw [e76, s76, s72, s68, s36, List.take_append_drop]

/-- Witness for `from_bytes_bytes_roundtrip` at `roundtripExample`. -/
theorem from_bytes_bytes_roundtrip_witness :
    (BlockHeader.from_bytes roundtripExample).bytes = roundtripExample :=
  from_bytes_bytes_roundtrip roundtripExample (by decide) (by decide) (by decide)

/-! ## C1: the optimized single-nonce search agrees with the direct double-SHA-256 -/

/-- C1: for a header whose hash-input fields are set (32-byte previous
hash and merkle root, 4-byte bits; the numeric fields are total in this
model) and any 32-bit nonce `n0`, `find_nonces(start=n0, end=n0)` yields at
most one header, and any yielded header carries nonce `n0` and a hash equal
to the byte-reversed direct (unoptimized) double-SHA-256 of the header's
80-byte serialization with nonce `n0` — the midstate/early-exit path agrees
with the naive computation. -/
theorem find_nonces_single_nonce_correct (bh : BlockHeader) (n0 : Nat)
    (hp : bh.previousblockhash.length = 32) (hm : bh.merkleroot.length = 32)
    (hb : bh.bits.length = 4) (_hn : n0 < 2 ^ 32) :
    (bh.find_nonces n0 n0).length ≤ 1 ∧
    ∀ r ∈ bh.find_nonces n0 n0,
      r.nonce = n0 ∧
      r.hash = some ((sha256 (sha256
        (({ bh with nonce := n0 } : BlockHeader).bytes))).reverse) := by
  have hrng : List.range' n0 (n0 + 1 - n0) = [n0] := by
    rw [Nat.add_sub_cancel_left]
    rfl
  have hfn : bh.find_nonces n0 n0 = List.filterMap
      (bh.nonce_attempt (SpecSHA256._process_block (bh.bytes.take 64))
        (roundsFrom 64 bh.message2 0 3 (SpecSHA256._process_block (bh.bytes.take 64)))
        difficulty_one_target) [n0] := by
    unfold BlockHeader.find_nonces
    rw [hrng]
  constructor
  · rw [hfn]
    exact le_trans (List.length_filterMap_le _ _) (by simp)
  · intro r hr
    rw [hfn, List.mem_filterMap] at hr
    obtain ⟨a, ha, hsome⟩ := hr
    rw [List.mem_singleton] at ha
    rw [ha] at hsome
    simp only [BlockHeader.nonce_attempt] at hsome
    split at hsome
    · exact absurd hsome (by simp)
    · split at hsome
      · injection hsome with hsome
        subst hsome
        refine ⟨rfl, ?_⟩
        exact congrArg some
          (congrArg List.reverse (attempt_hash_eq_naive bh n0
            (bh.first_hash_state (SpecSHA256._process_block (bh.bytes.take 64))
              (roundsFrom 64 bh.message2 0 3 (SpecSHA256._process_block (bh.bytes.take 64)))
              n0)
            rfl hp hm hb))
      · exact absurd hsome (by simp)

/-- Witness for `find_nonces_single_nonce_correct` at `searchExample` and
nonce 0. -/
theorem find_nonces_single_nonce_correct_witness :
    (searchExample.find_nonces 0 0).length ≤ 1 ∧
    ∀ r ∈ searchExample.find_nonces 0 0,
      r.nonce = 0 ∧
      r.hash = some ((sha256 (sha256
        (({ searchExample with nonce := 0 } : BlockHeader).bytes))).reverse) :=
  find_nonces_single_nonce_correct searchExample 0 (by decide) (by decide) (by decide)
    (by decide)
